import Mathlib

/-!
Verification of the menu-tree subsystem of the `stk-test-be` repository.

The Go source under `internal/services/menu_service.go` maintains a forest of
menu rows in a relational store.  We model the store as a `List Menu` of rows
(one entry per table row) and each service method as a pure function on that
list.  UUIDs are modelled as `Nat`, with the zero uuid (`uuid.Nil`) being `0`.
Go `int` order indexes are modelled as `Int`.  Fallible methods return
`Except String`, mirroring the `error` results of the Go methods; a returned
error means the transaction performed no write.
-/

namespace MenuSpec

/-- Model of the `uuid.Nil` zero value from `github.com/google/uuid`. -/
def uuidNil : Nat := 0

/-- Row of the `menus` table (`internal/models/menu.go`): stored columns only;
the gorm `Children` association is not a column and is modelled separately by
`MenuNode` for tree assembly. -/
structure Menu where
  id : Nat
  parentId : Option Nat
  title : String
  path : Option String
  icon : Option String
  orderIndex : Int
  deriving DecidableEq, Repr

/-- Rows of one sibling group: `WHERE parent_id IS NULL` when `pid = none`,
`WHERE parent_id = ?` otherwise (both filters of the service). -/
def sibs (db : List Menu) (pid : Option Nat) : List Menu :=
  db.filter (fun m => m.parentId == pid)

/-- `MenuService.getSiblingCount` (menu_service.go:115-130). -/
def getSiblingCount (db : List Menu) (pid : Option Nat) : Nat :=
  (sibs db pid).length

/-- `MenuService.CreateMenu` (menu_service.go:39-65): when the requested index
is at least the sibling count the node is appended at index `count`; otherwise
every sibling with `order_index >= requested` is incremented and the node is
inserted as given.  The new row is appended to the row list (`tx.Create`). -/
def createMenu (db : List Menu) (menu : Menu) : List Menu :=
  let siblingCount : Int := (getSiblingCount db menu.parentId : Int)
  if siblingCount ≤ menu.orderIndex then
    db ++ [{ menu with orderIndex := siblingCount }]
  else
    (db.map fun m =>
      if m.parentId = menu.parentId ∧ menu.orderIndex ≤ m.orderIndex then
        { m with orderIndex := m.orderIndex + 1 }
      else m) ++ [menu]

/-- Row effect of the ranged shift `UPDATE` of `MenuService.ReorderMenu`
(menu_service.go:163-186): a row of the target's sibling group other than the
target itself, lying in the half-open window between the old and the new
index, moves one position towards the vacated side. -/
def shiftPass (id : Nat) (pid : Option Nat) (oldI newI : Int) (m : Menu) : Menu :=
  if ¬ m.id = id ∧ m.parentId = pid then
    if oldI < newI then
      if oldI < m.orderIndex ∧ m.orderIndex ≤ newI then
        { m with orderIndex := m.orderIndex - 1 }
      else m
    else
      if newI ≤ m.orderIndex ∧ m.orderIndex < oldI then
        { m with orderIndex := m.orderIndex + 1 }
      else m
  else m

/-- Row effect of the final `UPDATE ... SET order_index = newIndex WHERE id`
of `MenuService.ReorderMenu` (menu_service.go:188). -/
def setPass (id : Nat) (newI : Int) (m : Menu) : Menu :=
  if m.id = id then { m with orderIndex := newI } else m

theorem shiftPass_id (id : Nat) (pid : Option Nat) (oldI newI : Int) (m : Menu) :
    (shiftPass id pid oldI newI m).id = m.id := by
  rw [shiftPass]; split_ifs <;> rfl

theorem shiftPass_parent (id : Nat) (pid : Option Nat) (oldI newI : Int) (m : Menu) :
    (shiftPass id pid oldI newI m).parentId = m.parentId := by
  rw [shiftPass]; split_ifs <;> rfl

theorem setPass_id (id : Nat) (newI : Int) (m : Menu) :
    (setPass id newI m).id = m.id := by
  rw [setPass]; split_ifs <;> rfl

theorem setPass_parent (id : Nat) (newI : Int) (m : Menu) :
    (setPass id newI m).parentId = m.parentId := by
  rw [setPass]; split_ifs <;> rfl

/-- `MenuService.ReorderMenu` (menu_service.go:132-194): look up the node,
reject a negative target, clamp a too-large target to `count - 1`, default the
old index to the stored one, no-op when equal, otherwise shift the in-between
siblings (excluding the node itself) and finally set the node's index. -/
def reorderMenu (db : List Menu) (id : Nat) (newIndex : Int) (oldIndex : Option Int) :
    Except String (List Menu) :=
  match db.find? (fun m => m.id == id) with
  | none => .error "menu not found"
  | some menu =>
    let siblingCount : Int := (getSiblingCount db menu.parentId : Int)
    if newIndex < 0 then
      .error "invalid target position: index cannot be negative"
    else
      let newIndex := if siblingCount ≤ newIndex then siblingCount - 1 else newIndex
      let actualOldIndex := oldIndex.getD menu.orderIndex
      if actualOldIndex = newIndex then
        .ok db
      else
        let shifted := db.map (shiftPass id menu.parentId actualOldIndex newIndex)
        .ok (shifted.map (setPass id newIndex))

/-- `MenuService.UpdateMenu` (menu_service.go:67-92): load the current row,
run a reorder when the request's order index is non-zero and differs from the
stored one, then write the `title`, `parent_id`, `path` and `icon` columns
unconditionally from the request struct. -/
def updateMenu (db : List Menu) (id : Nat) (menu : Menu) : Except String (List Menu) :=
  match db.find? (fun m => m.id == id) with
  | none => .error "menu not found"
  | some currentMenu =>
    match (if ¬ menu.orderIndex = 0 ∧ ¬ menu.orderIndex = currentMenu.orderIndex then
        reorderMenu db id menu.orderIndex (some currentMenu.orderIndex)
      else .ok db) with
    | .error e => .error e
    | .ok db1 =>
      .ok (db1.map fun m =>
        if m.id = id then
          { m with title := menu.title, parentId := menu.parentId,
                   path := menu.path, icon := menu.icon }
        else m)

/-- `MenuService.DeleteMenu` (menu_service.go:94-99): delete the rows whose
`parent_id` equals the id (direct children only), then delete the row itself. -/
def deleteMenu (db : List Menu) (id : Nat) : List Menu :=
  (db.filter (fun m => ¬ m.parentId = some id)).filter (fun m => ¬ m.id = id)

/-- Row transformation of the final `Update("parent_id", newParentID)` call of
`MenuService.MoveMenu`. -/
def setParent (db : List Menu) (id : Nat) (pid : Option Nat) : List Menu :=
  db.map fun m => if m.id = id then { m with parentId := pid } else m

/-- `MenuService.MoveMenu` (menu_service.go:101-113): the destination parent is
looked up only when the pointer is non-nil and not `uuid.Nil`; on a missing
parent the call errors, otherwise `parent_id` is updated. -/
def moveMenu (db : List Menu) (id : Nat) (newParentId : Option Nat) :
    Except String (List Menu) :=
  match newParentId with
  | some p =>
    if ¬ p = uuidNil then
      if (db.find? (fun m => m.id == p)).isSome then
        .ok (setParent db id (some p))
      else
        .error "parent menu not found"
    else
      .ok (setParent db id (some p))
  | none => .ok (setParent db id none)

/-- `dto.CreateMenuRequest` (internal/dto/menu_dto.go:8-14). -/
structure CreateMenuRequest where
  parentId : Option Nat
  title : String
  path : Option String
  icon : Option String
  orderIndex : Option Int
  deriving DecidableEq, Repr

/-- Model of the handler's request-to-model mapping for menu creation
(handlers/health.go:435-445): `OrderIndex` starts at `0` and is overwritten
only when the request carries a value; the id is assigned by the
`BeforeCreate` hook and is passed in here. -/
def menuFromCreateRequest (req : CreateMenuRequest) (newId : Nat) : Menu :=
  { id := newId, parentId := req.parentId, title := req.title,
    path := req.path, icon := req.icon, orderIndex := req.orderIndex.getD 0 }

/-- Composition of the create handler with the service call. -/
def handleCreateMenu (db : List Menu) (req : CreateMenuRequest) (newId : Nat) : List Menu :=
  createMenu db (menuFromCreateRequest req newId)

end MenuSpec

namespace MenuSpec

/-! ### Shared helper lemmas -/

/-- Record eta for an order-index overwrite with the stored value. -/
theorem setIdx_self (m : Menu) (x : Int) (h : x = m.orderIndex) :
    { m with orderIndex := x } = m := by
  cases m; simpa using h

/-- Ids of the rows of a store state. -/
def idsOf (db : List Menu) : List Nat := db.map Menu.id

theorem eq_of_id_eq {db : List Menu} (hN : (idsOf db).Nodup)
    {a b : Menu} (ha : a ∈ db) (hb : b ∈ db) (h : a.id = b.id) : a = b :=
  List.inj_on_of_nodup_map (f := Menu.id) hN ha hb h

/-- Looking up an id in a map whose function preserves ids commutes with the map. -/
theorem find?_map_of_id_eq (db : List Menu) (id : Nat) (g : Menu → Menu)
    (hg : ∀ m, (g m).id = m.id) :
    (db.map g).find? (fun m => m.id == id) = (db.find? (fun m => m.id == id)).map g := by
  induction db with
  | nil => rfl
  | cons a t ih =>
    by_cases h : a.id = id
    · simp [List.find?_cons, hg, h]
    · simp only [List.map_cons, List.find?_cons]
      have h1 : ((g a).id == id) = false := by simpa [hg] using h
      have h2 : (a.id == id) = false := by simpa using h
      rw [h1, h2]; exact ih

/-- In a store with unique ids, `find?` by id returns the member with that id. -/
theorem find?_eq_of_mem {db : List Menu} (hN : (idsOf db).Nodup)
    {r : Menu} (hr : r ∈ db) {id : Nat} (hid : r.id = id) :
    db.find? (fun m => m.id == id) = some r := by
  induction db with
  | nil => cases hr
  | cons a t ih =>
    have hsplit : a.id ∉ idsOf t ∧ (idsOf t).Nodup := by
      simpa [idsOf, List.nodup_cons] using hN
    rcases List.mem_cons.mp hr with rfl | hr
    · have hpos : (r.id == id) = true := by simpa using hid
      simp [List.find?_cons, hpos]
    · have hneg : ¬ a.id = id := by
        intro h
        apply hsplit.1
        have : r.id ∈ idsOf t := List.mem_map_of_mem Menu.id hr
        rwa [hid, ← h] at this
      have hb : (a.id == id) = false := by simpa using hneg
      simp only [List.find?_cons, hb]
      exact ih hsplit.2 hr

theorem find?_some_mem {db : List Menu} {id : Nat} {r : Menu}
    (h : db.find? (fun m => m.id == id) = some r) : r ∈ db ∧ r.id = id := by
  refine ⟨List.mem_of_find?_eq_some h, ?_⟩
  have := List.find?_some h
  simpa using this

/-- Filtering by a set that touches no row of a group leaves the group's rows
unchanged; stated for a parent-preserving per-row transformation. -/
theorem sibs_map_of_parent_eq (db : List Menu) (pid : Option Nat) (g : Menu → Menu)
    (hg : ∀ m, (g m).parentId = m.parentId) :
    sibs (db.map g) pid = (sibs db pid).map g := by
  induction db with
  | nil => rfl
  | cons a t ih =>
    simp only [sibs, List.map_cons, List.filter_cons] at ih ⊢
    by_cases h : a.parentId = pid
    · simp [hg, h, ih]
    · simp [hg, h, ih]

theorem sibs_append (db₁ db₂ : List Menu) (pid : Option Nat) :
    sibs (db₁ ++ db₂) pid = sibs db₁ pid ++ sibs db₂ pid := by
  simp [sibs, List.filter_append]

end MenuSpec

/-! ### C1: the reorder window shift -/

namespace MenuSpec

/-- Stored order index of a node, by id. -/
def idxOf (db : List Menu) (id : Nat) : Option Int :=
  (db.find? (fun m => m.id == id)).map Menu.orderIndex

/-- Order index of a node in the state produced by a fallible call. -/
def resultIdx (res : Except String (List Menu)) (id : Nat) : Option Int :=
  res.toOption.bind (fun db => idxOf db id)

/-- Spec-side description of one reorder (§4 Reorder of the spec, stated per
row): the target gets the new index; any other sibling strictly between the
old and the new position is shifted by one towards the vacated side. -/
def reorderSpecStep (id : Nat) (pid : Option Nat) (oldIdx newIdx : Int) (m : Menu) : Menu :=
  if m.id = id then { m with orderIndex := newIdx }
  else if m.parentId = pid ∧ oldIdx < newIdx ∧ oldIdx < m.orderIndex ∧ m.orderIndex ≤ newIdx then
    { m with orderIndex := m.orderIndex - 1 }
  else if m.parentId = pid ∧ newIdx < oldIdx ∧ newIdx ≤ m.orderIndex ∧ m.orderIndex < oldIdx then
    { m with orderIndex := m.orderIndex + 1 }
  else m

/-- Three root siblings titled "Menu 0/1/2" at indices 0, 1, 2. -/
def menuRow (id : Nat) (pid : Option Nat) (t : String) (idx : Int) : Menu :=
  { id := id, parentId := pid, title := t, path := none, icon := none, orderIndex := idx }

def threeRoots : List Menu :=
  [menuRow 1 none "Menu 0" 0, menuRow 2 none "Menu 1" 1, menuRow 3 none "Menu 2" 2]

/-- Fusing the service's two sequential row updates (shift pass, then target
set) into the spec's single per-row case split. -/
theorem reorderStepFusion (id : Nat) (pid : Option Nat) (oldI newI : Int) (m : Menu) :
    setPass id newI (shiftPass id pid oldI newI m)
    = reorderSpecStep id pid oldI newI m := by
  by_cases hmid : m.id = id
  · rw [shiftPass, if_neg (fun h => h.1 hmid), setPass]
    simp only [reorderSpecStep]
    rw [if_pos hmid, if_pos hmid]
  · by_cases hpar : m.parentId = pid
    · by_cases hdir : oldI < newI
      · by_cases hwin : oldI < m.orderIndex ∧ m.orderIndex ≤ newI
        · rw [shiftPass, if_pos ⟨hmid, hpar⟩, if_pos hdir, if_pos hwin, setPass]
          rw [if_neg hmid]
          simp only [reorderSpecStep]
          rw [if_neg hmid, if_pos ⟨hpar, hdir, hwin.1, hwin.2⟩]
        · rw [shiftPass, if_pos ⟨hmid, hpar⟩, if_pos hdir, if_neg hwin, setPass]
          rw [if_neg hmid]
          simp only [reorderSpecStep]
          rw [if_neg hmid, if_neg (by rintro ⟨-, -, w1, w2⟩; exact hwin ⟨w1, w2⟩),
            if_neg (by rintro ⟨-, w, -, -⟩; omega)]
      · by_cases hwin : newI ≤ m.orderIndex ∧ m.orderIndex < oldI
        · rw [shiftPass, if_pos ⟨hmid, hpar⟩, if_neg hdir, if_pos hwin, setPass]
          rw [if_neg hmid]
          simp only [reorderSpecStep]
          rw [if_neg hmid, if_neg (by rintro ⟨-, w, -, -⟩; omega),
            if_pos ⟨hpar, by omega, hwin.1, hwin.2⟩]
        · rw [shiftPass, if_pos ⟨hmid, hpar⟩, if_neg hdir, if_neg hwin, setPass]
          rw [if_neg hmid]
          simp only [reorderSpecStep]
          rw [if_neg hmid, if_neg (by rintro ⟨-, w, -, -⟩; omega),
            if_neg (by rintro ⟨-, -, w1, w2⟩; exact hwin ⟨w1, w2⟩)]
    · rw [shiftPass, if_neg (by rintro ⟨-, w⟩; exact hpar w), setPass]
      rw [if_neg hmid]
      simp only [reorderSpecStep]
      rw [if_neg hmid, if_neg (by rintro ⟨w, -⟩; exact hpar w),
        if_neg (by rintro ⟨w, -⟩; exact hpar w)]

/-- C1: `ReorderMenu` on an existing node with an in-range new index different
from the resolved old index performs exactly the spec's window shift — every
other sibling in the half-open window moves by one, the target is set to the
new index — and on three root siblings `Reorder(Menu0, new=2, old=0)` leaves
them at indices 2, 0, 1 respectively. -/
theorem reorderMenu_window_shift (db : List Menu) (id : Nat) (newIdx : Int)
    (old : Option Int) (r : Menu)
    (hfind : db.find? (fun m => m.id == id) = some r)
    (h0 : 0 ≤ newIdx) (hrange : newIdx < (getSiblingCount db r.parentId : Int))
    (hne : ¬ old.getD r.orderIndex = newIdx) :
    reorderMenu db id newIdx old
      = .ok (db.map (reorderSpecStep id r.parentId (old.getD r.orderIndex) newIdx)) ∧
    (resultIdx (reorderMenu threeRoots 1 2 (some 0)) 1 = some 2 ∧
     resultIdx (reorderMenu threeRoots 1 2 (some 0)) 2 = some 0 ∧
     resultIdx (reorderMenu threeRoots 1 2 (some 0)) 3 = some 1) := by
  constructor
  · simp only [reorderMenu, hfind]
    have hcl : (if (getSiblingCount db r.parentId : Int) ≤ newIdx then
        (getSiblingCount db r.parentId : Int) - 1 else newIdx) = newIdx :=
      if_neg (by omega)
    simp only [hcl]
    rw [if_neg (show ¬ newIdx < 0 by omega), if_neg hne]
    congr 1
    rw [List.map_map]
    exact List.map_congr_left
      (fun m _ => reorderStepFusion id r.parentId (old.getD r.orderIndex) newIdx m)
  · refine ⟨by decide, by decide, by decide⟩

/-- Witness for C1 at the three-sibling store. -/
theorem reorderMenu_window_shift_witness :
    reorderMenu threeRoots 1 2 (some 0)
      = .ok (threeRoots.map (reorderSpecStep 1 none 0 2)) :=
  (reorderMenu_window_shift threeRoots 1 2 (some 0) (menuRow 1 none "Menu 0" 0)
    (by decide) (by decide) (by decide) (by decide)).1

end MenuSpec

/-! ### C4: delete cascade depth -/

namespace MenuSpec

/-- Root, child, grandchild chain: 1 ← 2 ← 3. -/
def chainDb : List Menu :=
  [menuRow 1 none "A" 0, menuRow 2 (some 1) "B" 0, menuRow 3 (some 2) "C" 0]

/-- Counterexample to C4: deleting the root of a three-level chain removes only
the root and its direct child; the grandchild survives with a `parent_id`
pointing at the deleted id 2. -/
theorem deleteMenu_leaves_grandchild :
    deleteMenu chainDb 1 = [menuRow 3 (some 2) "C" 0] ∧
    (deleteMenu chainDb 1).any (fun m => m.parentId == some 2) = true ∧
    (deleteMenu chainDb 1).any (fun m => m.id == 2) = false := by
  refine ⟨by decide, by decide, by decide⟩

/-- C4 (amended): `DeleteMenu id` removes exactly the row `id` and the rows
whose `parent_id` equals `id` (the direct children); every other row — deeper
descendants included — survives. -/
theorem deleteMenu_mem_iff (db : List Menu) (id : Nat) (m : Menu) :
    m ∈ deleteMenu db id ↔ m ∈ db ∧ ¬ m.parentId = some id ∧ ¬ m.id = id := by
  simp only [deleteMenu, List.mem_filter, decide_eq_true_eq, and_assoc]

/-! ### C5: update writes all columns -/

/-- Parent row and a child row with every optional column populated. -/
def fullRow : Menu :=
  { id := 1, parentId := some 9, title := "A", path := some "/a",
    icon := some "ia", orderIndex := 0 }

def c5Db : List Menu := [menuRow 9 none "P" 0, fullRow]

/-- Model of the handler's `models.Menu{}` patch when no request field is
present (handlers/health.go:504-519): every absent field stays at its Go zero
value. -/
def emptyPatch : Menu :=
  { id := 0, parentId := none, title := "", path := none, icon := none, orderIndex := 0 }

/-- Counterexample to C5: updating with an all-absent patch overwrites
`title`, `parent_id`, `path` and `icon` with zero values instead of keeping
the stored ones. -/
theorem updateMenu_clobbers_absent_fields :
    (updateMenu c5Db 1 emptyPatch).toOption.bind
        (fun db => db.find? (fun m => m.id == 1))
      = some { id := 1, parentId := none, title := "", path := none,
               icon := none, orderIndex := 0 } := by
  decide

/-- C5 (amended): as long as the requested order index does not trigger the
reorder path (it is zero or equal to the stored one), `UpdateMenu` writes the
`title`, `parent_id`, `path` and `icon` columns of the target row
unconditionally from the patch, leaves its `order_index` unchanged and leaves
every other row unchanged. -/
theorem updateMenu_writes_all_columns (db : List Menu) (id : Nat) (patch cur : Menu)
    (hfind : db.find? (fun m => m.id == id) = some cur)
    (hno : patch.orderIndex = 0 ∨ patch.orderIndex = cur.orderIndex) :
    updateMenu db id patch = .ok (db.map fun m =>
      if m.id = id then
        { m with title := patch.title, parentId := patch.parentId,
                 path := patch.path, icon := patch.icon }
      else m) := by
  simp only [updateMenu, hfind]
  rw [if_neg (fun hc => hno.elim (fun h => hc.1 h) (fun h => hc.2 h))]

/-- Witness for C5: the all-absent patch at the populated two-row store. -/
theorem updateMenu_writes_all_columns_witness :
    updateMenu c5Db 1 emptyPatch = .ok (c5Db.map fun m =>
      if m.id = 1 then
        { m with title := emptyPatch.title, parentId := emptyPatch.parentId,
                 path := emptyPatch.path, icon := emptyPatch.icon }
      else m) :=
  updateMenu_writes_all_columns c5Db 1 emptyPatch fullRow (by decide) (Or.inl (by decide))

end MenuSpec

/-! ### C6: the update-reorder trigger -/

namespace MenuSpec

/-- Patch carrying a zero order index and a fresh title (the handler produces
order index 0 both for an absent field and for an explicit 0). -/
def zeroIdxPatch : Menu :=
  { id := 0, parentId := none, title := "T", path := none, icon := none, orderIndex := 1 }

/-- Counterexample to C6: on the three-root store, updating `Menu 1` (stored
index 1) with a patch whose order index is 0 — present and different from the
stored value — performs no reorder at all: the row keeps index 1 instead of
moving to 0. -/
theorem updateMenu_zero_index_skips_reorder :
    resultIdx (updateMenu threeRoots 2
      { id := 0, parentId := none, title := "T", path := none, icon := none,
        orderIndex := 0 }) 2 = some 1 ∧
    ¬ resultIdx (updateMenu threeRoots 2
      { id := 0, parentId := none, title := "T", path := none, icon := none,
        orderIndex := 0 }) 2 = some 0 := by
  refine ⟨by decide, by decide⟩

/-- C6 (amended): only when the patch's order index is non-zero and differs
from the stored one does `UpdateMenu` first run `ReorderMenu` from the stored
index to the requested one (through the service's own handle, i.e. in its own
transaction) and then apply the column updates to the reordered state. -/
theorem updateMenu_reorder_trigger (db : List Menu) (id : Nat) (patch cur : Menu)
    (hfind : db.find? (fun m => m.id == id) = some cur)
    (hnz : ¬ patch.orderIndex = 0) (hdiff : ¬ patch.orderIndex = cur.orderIndex) :
    updateMenu db id patch =
      Except.map (fun db1 => db1.map fun m =>
        if m.id = id then
          { m with title := patch.title, parentId := patch.parentId,
                   path := patch.path, icon := patch.icon }
        else m)
      (reorderMenu db id patch.orderIndex (some cur.orderIndex)) := by
  simp only [updateMenu, hfind]
  rw [if_pos ⟨hnz, hdiff⟩]
  cases hres : reorderMenu db id patch.orderIndex (some cur.orderIndex) with
  | error e => simp [Except.map]
  | ok db1 => simp [Except.map]

/-- Witness for C6: moving `Menu 0` to index 2 through an update. -/
theorem updateMenu_reorder_trigger_witness :
    updateMenu threeRoots 1
      { id := 0, parentId := none, title := "T", path := none, icon := none,
        orderIndex := 2 } =
      Except.map (fun db1 => db1.map fun m =>
        if m.id = 1 then
          { m with title := "T", parentId := none, path := none, icon := none }
        else m)
      (reorderMenu threeRoots 1 2 (some 0)) :=
  updateMenu_reorder_trigger threeRoots 1
    { id := 0, parentId := none, title := "T", path := none, icon := none, orderIndex := 2 }
    (menuRow 1 none "Menu 0" 0) (by decide) (by decide) (by decide)

/-! ### C7: move with a missing destination parent -/

/-- Counterexample to C7: a non-null destination parent equal to the zero uuid
bypasses the existence check — the move succeeds and stores the dangling zero
uuid even though no row has id 0. -/
theorem moveMenu_nil_uuid_bypasses_check :
    (threeRoots.any (fun m => m.id == uuidNil)) = false ∧
    (moveMenu threeRoots 1 (some uuidNil)).toOption
      = some [menuRow 1 (some 0) "Menu 0" 0,
              menuRow 2 none "Menu 1" 1, menuRow 3 none "Menu 2" 2] := by
  refine ⟨by decide, by decide⟩

/-- C7 (amended): when the destination parent id is non-null, different from
the zero uuid and not the id of any stored row, `MoveMenu` fails with "parent
menu not found" and — the error being returned before any update — the store
is unchanged. -/
theorem moveMenu_missing_parent_error (db : List Menu) (id p : Nat)
    (hp : ¬ p = uuidNil) (hmiss : db.find? (fun m => m.id == p) = none) :
    moveMenu db id (some p) = .error "parent menu not found" := by
  simp only [moveMenu, hmiss]
  rw [if_pos hp]
  simp

/-- Witness for C7: destination id 99 is absent from the three-root store. -/
theorem moveMenu_missing_parent_error_witness :
    moveMenu threeRoots 1 (some 99) = .error "parent menu not found" :=
  moveMenu_missing_parent_error threeRoots 1 99 (by decide) (by decide)

/-! ### C8: create placement policy -/

def singleRoot : List Menu := [menuRow 1 none "A" 0]

/-- Request with every optional field absent (in particular `order_index`). -/
def omittedIdxReq : CreateMenuRequest :=
  { parentId := none, title := "B", path := none, icon := none, orderIndex := none }

/-- Counterexample to C8: with one existing root sibling, creating through the
handler with `order_index` omitted does not append at the end (index 1): the
handler defaults the index to 0, the new node is inserted at the front and the
existing sibling is shifted to 1. -/
theorem createMenu_omitted_index_prepends :
    idxOf (handleCreateMenu singleRoot omittedIdxReq 2) 2 = some 0 ∧
    idxOf (handleCreateMenu singleRoot omittedIdxReq 2) 1 = some 1 ∧
    ¬ idxOf (handleCreateMenu singleRoot omittedIdxReq 2) 2 = some 1 := by
  refine ⟨by decide, by decide, by decide⟩

/-- C8 (amended): a requested index at or beyond the sibling count is replaced
by the count (append, nothing shifted); a requested index below the count
shifts every sibling at or beyond it up by one and inserts the node as
requested; and an omitted `order_index` is defaulted by the handler to 0 (so
with existing siblings it prepends instead of appending). -/
theorem createMenu_placement (db : List Menu) (menu : Menu)
    (req : CreateMenuRequest) (newId : Nat) :
    ((getSiblingCount db menu.parentId : Int) ≤ menu.orderIndex →
      createMenu db menu
        = db ++ [{ menu with orderIndex := (getSiblingCount db menu.parentId : Int) }]) ∧
    (menu.orderIndex < (getSiblingCount db menu.parentId : Int) →
      createMenu db menu
        = (db.map fun m =>
            if m.parentId = menu.parentId ∧ menu.orderIndex ≤ m.orderIndex then
              { m with orderIndex := m.orderIndex + 1 }
            else m) ++ [menu]) ∧
    (req.orderIndex = none → (menuFromCreateRequest req newId).orderIndex = 0) := by
  refine ⟨fun h => ?_, fun h => ?_, fun h => ?_⟩
  · simp only [createMenu]
    rw [if_pos h]
  · simp only [createMenu]
    rw [if_neg (by omega)]
  · simp [menuFromCreateRequest, h]

/-- Witness for C8: appending with a large requested index, the front insert
with index 0, and the handler defaulting of an omitted index. -/
theorem createMenu_placement_witness :
    (createMenu singleRoot (menuRow 2 none "B" 5)
      = singleRoot ++ [{ menuRow 2 none "B" 5 with orderIndex := 1 }]) ∧
    (createMenu singleRoot (menuRow 2 none "B" 0)
      = (singleRoot.map fun m =>
          if m.parentId = none ∧ (0 : Int) ≤ m.orderIndex then
            { m with orderIndex := m.orderIndex + 1 }
          else m) ++ [menuRow 2 none "B" 0]) ∧
    (menuFromCreateRequest omittedIdxReq 2).orderIndex = 0 :=
  ⟨(createMenu_placement singleRoot (menuRow 2 none "B" 5) omittedIdxReq 2).1 (by decide),
   (createMenu_placement singleRoot (menuRow 2 none "B" 0) omittedIdxReq 2).2.1 (by decide),
   (createMenu_placement singleRoot (menuRow 2 none "B" 0) omittedIdxReq 2).2.2 rfl⟩

end MenuSpec

/-! ### C9: negative rejection and clamp policy -/

namespace MenuSpec

/-- C9: on an existing node, a negative target index is rejected with the
"invalid target position" error; a target index at or beyond the sibling count
succeeds (clamp policy) and leaves the target at index `count - 1`; with three
root siblings, `Reorder(Menu0, new_index=100, old_index=0)` ends with Menu0 at
index 2. -/
theorem reorderMenu_range_policy (db : List Menu) (id : Nat) (r : Menu)
    (hfind : db.find? (fun m => m.id == id) = some r) :
    (∀ newIdx : Int, newIdx < 0 → ∀ old, reorderMenu db id newIdx old
        = .error "invalid target position: index cannot be negative") ∧
    (∀ newIdx : Int, (getSiblingCount db r.parentId : Int) ≤ newIdx →
      ∀ old : Option Int, (old = none ∨ old = some r.orderIndex) →
      ∃ db2, reorderMenu db id newIdx old = .ok db2 ∧
        idxOf db2 id = some ((getSiblingCount db r.parentId : Int) - 1)) ∧
    resultIdx (reorderMenu threeRoots 1 100 (some 0)) 1 = some 2 := by
  refine ⟨fun newIdx hneg old => ?_, fun newIdx hbig old hold => ?_, by decide⟩
  · simp only [reorderMenu, hfind]
    rw [if_pos hneg]
  · have holdv : old.getD r.orderIndex = r.orderIndex := by
      rcases hold with rfl | rfl <;> rfl
    have hc0 : 0 ≤ (getSiblingCount db r.parentId : Int) := Int.natCast_nonneg _
    have hrid : r.id = id := (find?_some_mem hfind).2
    simp only [reorderMenu, hfind]
    rw [if_neg (by omega)]
    simp only [if_pos hbig, holdv]
    by_cases hO : r.orderIndex = (getSiblingCount db r.parentId : Int) - 1
    · rw [if_pos hO]
      exact ⟨db, rfl, by simp [idxOf, hfind, hO]⟩
    · rw [if_neg hO]
      refine ⟨_, rfl, ?_⟩
      rw [idxOf, find?_map_of_id_eq _ _ _ (setPass_id id _),
        find?_map_of_id_eq _ _ _ (shiftPass_id id r.parentId _ _), hfind]
      simp [setPass, shiftPass, hrid]

/-- Witness for C9 on the three-root store. -/
theorem reorderMenu_range_policy_witness :
    (reorderMenu threeRoots 1 (-5) (some 0)
      = .error "invalid target position: index cannot be negative") ∧
    (∃ db2, reorderMenu threeRoots 1 100 (some 0) = .ok db2 ∧
      idxOf db2 1 = some ((getSiblingCount threeRoots none : Int) - 1)) :=
  ⟨(reorderMenu_range_policy threeRoots 1 (menuRow 1 none "Menu 0" 0) (by decide)).1
      (-5) (by decide) (some 0),
   (reorderMenu_range_policy threeRoots 1 (menuRow 1 none "Menu 0" 0) (by decide)).2.1
      100 (by decide) (some 0) (Or.inr (by decide))⟩

end MenuSpec

/-! ### Density framework (C2, C10) -/

namespace MenuSpec

/-- Order indexes of one sibling group. -/
def groupIdxs (db : List Menu) (pid : Option Nat) : List Int :=
  (sibs db pid).map Menu.orderIndex

/-- One sibling group is dense: its order indexes are a permutation of
`0, 1, …, k-1` where `k` is the group's size. -/
def denseGroup (db : List Menu) (pid : Option Nat) : Prop :=
  List.Perm (groupIdxs db pid) ((List.range (groupIdxs db pid).length).map (fun n : Nat => (n : Int)))

instance (db : List Menu) (pid : Option Nat) : Decidable (denseGroup db pid) :=
  List.decidablePerm _ _

/-- Every inhabited sibling group of the store is dense (empty groups are
vacuously dense). -/
def Dense (db : List Menu) : Prop := ∀ m ∈ db, denseGroup db m.parentId

instance (db : List Menu) : Decidable (Dense db) := List.decidableBAll _ db

theorem count_range_map (k : Nat) (j : Int) :
    ((List.range k).map (fun n : Nat => (n : Int))).count j
      = if 0 ≤ j ∧ j < (k : Int) then 1 else 0 := by
  induction k with
  | zero => rw [if_neg (by omega)]; rfl
  | succ n ih =>
    rw [List.range_succ]
    simp only [List.map_append, List.count_append, ih, List.map_cons, List.map_nil,
      List.count_cons, List.count_nil, beq_iff_eq]
    split_ifs <;> omega

theorem denseGroup_iff_count (db : List Menu) (pid : Option Nat) :
    denseGroup db pid ↔ ∀ j : Int, (groupIdxs db pid).count j
      = if 0 ≤ j ∧ j < ((groupIdxs db pid).length : Int) then 1 else 0 := by
  rw [denseGroup, List.perm_iff_count]
  constructor
  · intro h j; rw [h j, count_range_map]
  · intro h j; rw [h j, count_range_map]

theorem denseGroup_bounds {db : List Menu} {pid : Option Nat}
    (h : denseGroup db pid) {m : Menu} (hm : m ∈ sibs db pid) :
    0 ≤ m.orderIndex ∧ m.orderIndex < ((groupIdxs db pid).length : Int) := by
  have hmem : m.orderIndex ∈ groupIdxs db pid := List.mem_map_of_mem Menu.orderIndex hm
  have h2 := h.mem_iff.mp hmem
  simp only [List.mem_map, List.mem_range] at h2
  obtain ⟨n, hn, he⟩ := h2
  omega

theorem count_map_bumpFrom (t : Int) (I : List Int) (j : Int) :
    (I.map fun x => if t ≤ x then x + 1 else x).count j
      = if j < t then I.count j else if t < j then I.count (j - 1) else 0 := by
  induction I with
  | nil => simp only [List.map_nil, List.count_nil]; split_ifs <;> rfl
  | cons a tl ih =>
    simp only [List.map_cons, List.count_cons, ih, beq_iff_eq]
    split_ifs <;> omega

theorem count_map_shiftDown (lo hi : Int) (I : List Int) (j : Int) :
    (I.map fun x => if lo < x ∧ x ≤ hi then x - 1 else x).count j
      = (if lo ≤ j ∧ j < hi then I.count (j + 1) else 0)
        + (if lo < j ∧ j ≤ hi then 0 else I.count j) := by
  induction I with
  | nil => simp only [List.map_nil, List.count_nil]; split_ifs <;> rfl
  | cons a tl ih =>
    simp only [List.map_cons, List.count_cons, ih, beq_iff_eq]
    split_ifs <;> omega

theorem count_map_shiftUp (lo hi : Int) (I : List Int) (j : Int) :
    (I.map fun x => if lo ≤ x ∧ x < hi then x + 1 else x).count j
      = (if lo < j ∧ j ≤ hi then I.count (j - 1) else 0)
        + (if lo ≤ j ∧ j < hi then 0 else I.count j) := by
  induction I with
  | nil => simp only [List.map_nil, List.count_nil]; split_ifs <;> rfl
  | cons a tl ih =>
    simp only [List.map_cons, List.count_cons, ih, beq_iff_eq]
    split_ifs <;> omega

theorem filter_id_single {l : List Menu} (hN : (idsOf l).Nodup)
    {r : Menu} (hr : r ∈ l) : l.filter (fun m => m.id == r.id) = [r] := by
  induction l with
  | nil => cases hr
  | cons a tl ih =>
    have hsplit : a.id ∉ idsOf tl ∧ (idsOf tl).Nodup := by
      simpa [idsOf, List.nodup_cons] using hN
    rcases List.mem_cons.mp hr with rfl | hr
    · have hnil : tl.filter (fun m => m.id == r.id) = [] := by
        rw [List.filter_eq_nil_iff]
        intro b hb hbeq
        have hb2 : b.id = r.id := by simpa using hbeq
        exact hsplit.1 (hb2 ▸ List.mem_map_of_mem Menu.id hb)
      simp [List.filter_cons, hnil]
    · have hna : (a.id == r.id) = false := by
        simp only [beq_eq_false_iff_ne, ne_eq]
        intro h
        exact hsplit.1 (h ▸ List.mem_map_of_mem Menu.id hr)
      simp [List.filter_cons, hna, ih hsplit.2 hr]

/-- A store with unique row ids is, up to permutation, any of its members in
front of the other rows. -/
theorem perm_cons_rest {l : List Menu} (hN : (idsOf l).Nodup)
    {r : Menu} (hr : r ∈ l) :
    List.Perm l (r :: l.filter (fun m => !(m.id == r.id))) := by
  have h2 := List.filter_append_perm (fun m => m.id == r.id) l
  rw [filter_id_single hN hr] at h2
  exact h2.symm

theorem nodup_ids_filter {l : List Menu} (hN : (idsOf l).Nodup) (p : Menu → Bool) :
    (idsOf (l.filter p)).Nodup :=
  List.Nodup.sublist ((List.filter_sublist l).map Menu.id) hN

theorem nodup_ids_sibs {db : List Menu} (hN : (idsOf db).Nodup) (pid : Option Nat) :
    (idsOf (sibs db pid)).Nodup := nodup_ids_filter hN _

theorem mem_sibs {db : List Menu} {m : Menu} {pid : Option Nat} :
    m ∈ sibs db pid ↔ m ∈ db ∧ m.parentId = pid := by
  simp [sibs, List.mem_filter]

end MenuSpec

namespace MenuSpec

theorem idsOf_map_of_id_eq (db : List Menu) (g : Menu → Menu)
    (hg : ∀ m, (g m).id = m.id) : idsOf (db.map g) = idsOf db := by
  simp only [idsOf, List.map_map]
  exact List.map_congr_left (fun m _ => hg m)

theorem setPass_skip (id : Nat) (newI : Int) (m : Menu) (h : ¬ m.id = id) :
    setPass id newI m = m := by
  rw [setPass, if_neg h]

/-- Density of every sibling group after the two update passes of a
successful, non-trivial reorder of the row `r`. -/
theorem dense_after_shift (db : List Menu) (r : Menu) (id : Nat) (oldI newI' : Int)
    (hN : (idsOf db).Nodup) (hD : Dense db) (hmem : r ∈ db) (hrid : r.id = id)
    (hold : oldI = r.orderIndex)
    (hb0 : 0 ≤ newI') (hbk : newI' < ((groupIdxs db r.parentId).length : Int))
    (hne : ¬ oldI = newI') :
    Dense ((db.map (shiftPass id r.parentId oldI newI')).map (setPass id newI')) := by
  rw [List.map_map]
  have hGpar : ∀ m, ((setPass id newI' ∘ shiftPass id r.parentId oldI newI') m).parentId
      = m.parentId := fun m => by
    rw [Function.comp_apply, setPass_parent, shiftPass_parent]
  have hGid : ∀ m, ((setPass id newI' ∘ shiftPass id r.parentId oldI newI') m).id
      = m.id := fun m => by
    rw [Function.comp_apply, setPass_id, shiftPass_id]
  have hGout : ∀ m ∈ db, ¬ m.parentId = r.parentId →
      (setPass id newI' ∘ shiftPass id r.parentId oldI newI') m = m := by
    intro m hm hp
    have hmir : ¬ m.id = id := by
      intro h
      exact hp (congrArg Menu.parentId (eq_of_id_eq hN hm hmem (h.trans hrid.symm)))
    rw [Function.comp_apply, shiftPass, if_neg (by rintro ⟨-, w⟩; exact hp w),
      setPass, if_neg hmir]
  intro m2 hm2
  obtain ⟨m, hm, rfl⟩ := List.mem_map.mp hm2
  rw [hGpar m]
  by_cases hp : m.parentId = r.parentId
  · rw [hp]
    subst hold
    have hrsib : r ∈ sibs db r.parentId := mem_sibs.mpr ⟨hmem, rfl⟩
    have hSN : (idsOf (sibs db r.parentId)).Nodup := nodup_ids_sibs hN _
    have hperm := perm_cons_rest hSN hrsib
    have hrb := denseGroup_bounds (hD r hmem) hrsib
    have hI := (denseGroup_iff_count db r.parentId).mp (hD r hmem)
    have hsibs2 : sibs (db.map (setPass id newI' ∘ shiftPass id r.parentId r.orderIndex newI'))
        r.parentId = (sibs db r.parentId).map
          (setPass id newI' ∘ shiftPass id r.parentId r.orderIndex newI') :=
      sibs_map_of_parent_eq db r.parentId _ hGpar
    have hnew : groupIdxs (db.map (setPass id newI' ∘ shiftPass id r.parentId r.orderIndex newI'))
        r.parentId = (sibs db r.parentId).map
          (fun x => ((setPass id newI' ∘ shiftPass id r.parentId r.orderIndex newI') x).orderIndex) := by
      rw [groupIdxs, hsibs2, List.map_map]
      rfl
    have hlen2 : (groupIdxs (db.map (setPass id newI' ∘ shiftPass id r.parentId r.orderIndex newI'))
        r.parentId).length = (groupIdxs db r.parentId).length := by
      rw [hnew, groupIdxs, List.length_map, List.length_map]
    have hGr : ((setPass id newI' ∘ shiftPass id r.parentId r.orderIndex newI') r).orderIndex
        = newI' := by
      rw [Function.comp_apply, shiftPass, if_neg (by rintro ⟨w, -⟩; exact w hrid),
        setPass, if_pos hrid]
    have hIJ : ∀ j : Int, (groupIdxs db r.parentId).count j
        = ((((sibs db r.parentId).filter (fun m => !(m.id == r.id))).map Menu.orderIndex).count j)
          + (if r.orderIndex = j then 1 else 0) := by
      intro j
      have hc := (hperm.map Menu.orderIndex).count_eq j
      simpa only [List.map_cons, List.count_cons, beq_iff_eq, groupIdxs] using hc
    have hrestid : ∀ x ∈ (sibs db r.parentId).filter (fun m => !(m.id == r.id)),
        ¬ x.id = id ∧ x.parentId = r.parentId := by
      intro x hx
      have h1 := List.mem_filter.mp hx
      refine ⟨?_, (mem_sibs.mp h1.1).2⟩
      intro h
      have : x.id = r.id := h.trans hrid.symm
      simp [this] at h1
    rw [denseGroup_iff_count]
    intro j
    rw [hlen2, hnew]
    rw [(hperm.map (fun x =>
      ((setPass id newI' ∘ shiftPass id r.parentId r.orderIndex newI') x).orderIndex)).count_eq j]
    by_cases hdir : r.orderIndex < newI'
    · have hrest2 : ((sibs db r.parentId).filter (fun m => !(m.id == r.id))).map (fun x =>
          ((setPass id newI' ∘ shiftPass id r.parentId r.orderIndex newI') x).orderIndex)
          = (((sibs db r.parentId).filter (fun m => !(m.id == r.id))).map Menu.orderIndex).map
            (fun v => if r.orderIndex < v ∧ v ≤ newI' then v - 1 else v) := by
        rw [List.map_map]
        apply List.map_congr_left
        intro x hx
        obtain ⟨hxid, hxpar⟩ := hrestid x hx
        dsimp only [Function.comp_apply]
        rw [setPass_skip id newI' _ (by rw [shiftPass_id]; exact hxid)]
        rw [shiftPass, if_pos ⟨hxid, hxpar⟩, if_pos hdir]
        by_cases hw : r.orderIndex < x.orderIndex ∧ x.orderIndex ≤ newI'
        · rw [if_pos hw, if_pos hw]
        · rw [if_neg hw, if_neg hw]
      rw [List.map_cons, List.count_cons, hGr, hrest2, count_map_shiftDown]
      have hJ : ∀ v : Int,
          ((((sibs db r.parentId).filter (fun m => !(m.id == r.id))).map Menu.orderIndex).count v)
          = if 0 ≤ v ∧ v < ((groupIdxs db r.parentId).length : Int) ∧ ¬ v = r.orderIndex
            then 1 else 0 := by
        intro v
        have h1 := hI v
        have h2 := hIJ v
        split_ifs at h1 h2 ⊢ <;> omega
      have hq1 := hJ j
      have hq2 := hJ (j + 1)
      simp only [beq_iff_eq]
      clear hI hIJ hperm hm2 hGout hGpar hGid hsibs2 hnew hrest2 hJ
      split_ifs at hq1 hq2 ⊢ <;> omega
    · have hrest2 : ((sibs db r.parentId).filter (fun m => !(m.id == r.id))).map (fun x =>
          ((setPass id newI' ∘ shiftPass id r.parentId r.orderIndex newI') x).orderIndex)
          = (((sibs db r.parentId).filter (fun m => !(m.id == r.id))).map Menu.orderIndex).map
            (fun v => if newI' ≤ v ∧ v < r.orderIndex then v + 1 else v) := by
        rw [List.map_map]
        apply List.map_congr_left
        intro x hx
        obtain ⟨hxid, hxpar⟩ := hrestid x hx
        dsimp only [Function.comp_apply]
        rw [setPass_skip id newI' _ (by rw [shiftPass_id]; exact hxid)]
        rw [shiftPass, if_pos ⟨hxid, hxpar⟩, if_neg hdir]
        by_cases hw : newI' ≤ x.orderIndex ∧ x.orderIndex < r.orderIndex
        · rw [if_pos hw, if_pos hw]
        · rw [if_neg hw, if_neg hw]
      rw [List.map_cons, List.count_cons, hGr, hrest2, count_map_shiftUp]
      have hJ : ∀ v : Int,
          ((((sibs db r.parentId).filter (fun m => !(m.id == r.id))).map Menu.orderIndex).count v)
          = if 0 ≤ v ∧ v < ((groupIdxs db r.parentId).length : Int) ∧ ¬ v = r.orderIndex
            then 1 else 0 := by
        intro v
        have h1 := hI v
        have h2 := hIJ v
        split_ifs at h1 h2 ⊢ <;> omega
      have hq1 := hJ j
      have hq2 := hJ (j - 1)
      simp only [beq_iff_eq]
      clear hI hIJ hperm hm2 hGout hGpar hGid hsibs2 hnew hrest2 hJ
      split_ifs at hq1 hq2 ⊢ <;> omega
  · have hgroup : groupIdxs (db.map (setPass id newI' ∘ shiftPass id r.parentId oldI newI'))
        m.parentId = groupIdxs db m.parentId := by
      rw [groupIdxs, sibs_map_of_parent_eq db m.parentId _ hGpar]
      rw [List.map_congr_left (fun x hx =>
        hGout x (mem_sibs.mp hx).1 (by rw [(mem_sibs.mp hx).2]; exact hp))]
      simp [groupIdxs]
    rw [denseGroup, hgroup]
    exact hD m hm

end MenuSpec

namespace MenuSpec

/-- Every sibling group of a dense store is dense, the empty ones vacuously. -/
theorem dense_group_of {db : List Menu} (hD : Dense db) (pid : Option Nat) :
    denseGroup db pid := by
  cases hs : sibs db pid with
  | nil =>
    rw [denseGroup]
    unfold groupIdxs
    rw [hs]
    simp
  | cons x xs =>
    have hx : x ∈ sibs db pid := by rw [hs]; exact List.mem_cons_self x xs
    have := (mem_sibs.mp hx).2
    exact this ▸ hD x (mem_sibs.mp hx).1

theorem reorderMenu_ok_dense (db db2 : List Menu) (id : Nat) (newI : Int) (old : Option Int)
    (hN : (idsOf db).Nodup) (hD : Dense db)
    (hhon : ∀ r, db.find? (fun m => m.id == id) = some r → old = none ∨ old = some r.orderIndex)
    (hok : reorderMenu db id newI old = .ok db2) :
    Dense db2 ∧ idsOf db2 = idsOf db := by
  cases hf : db.find? (fun m => m.id == id) with
  | none => simp only [reorderMenu, hf] at hok; cases hok
  | some r =>
    obtain ⟨hmem, hrid⟩ := find?_some_mem hf
    have hkpos : 0 < getSiblingCount db r.parentId :=
      List.length_pos_of_mem (mem_sibs.mpr ⟨hmem, rfl⟩)
    have hgl : (groupIdxs db r.parentId).length = getSiblingCount db r.parentId := by
      rw [groupIdxs, List.length_map]; rfl
    simp only [reorderMenu, hf] at hok
    by_cases hneg : newI < 0
    · rw [if_pos hneg] at hok; cases hok
    · rw [if_neg hneg] at hok
      have holdv : old.getD r.orderIndex = r.orderIndex := by
        rcases hhon r hf with rfl | rfl <;> rfl
      rw [holdv] at hok
      by_cases heq : r.orderIndex =
          (if ((getSiblingCount db r.parentId : Int)) ≤ newI
            then ((getSiblingCount db r.parentId : Int)) - 1 else newI)
      · rw [if_pos heq] at hok
        injection hok with h
        subst h
        exact ⟨hD, rfl⟩
      · rw [if_neg heq] at hok
        injection hok with h
        subst h
        constructor
        · apply dense_after_shift db r id r.orderIndex _ hN hD hmem hrid rfl
          · split_ifs <;> omega
          · rw [hgl]; split_ifs <;> omega
          · exact heq
        · rw [idsOf_map_of_id_eq _ _ (setPass_id id _),
            idsOf_map_of_id_eq _ _ (shiftPass_id id r.parentId _ _)]

theorem createMenu_ids (db : List Menu) (menu : Menu) :
    idsOf (createMenu db menu) = idsOf db ++ [menu.id] := by
  rw [createMenu]
  split_ifs
  · simp [idsOf]
  · simp only [idsOf, List.map_append, List.map_map]
    rw [List.map_congr_left (g := Menu.id) (fun m _ => by
      dsimp only [Function.comp_apply]; split_ifs <;> rfl)]
    rfl

end MenuSpec

namespace MenuSpec

theorem denseGroup_congr {db1 db2 : List Menu} {pid : Option Nat}
    (h : groupIdxs db2 pid = groupIdxs db1 pid) (hd : denseGroup db1 pid) :
    denseGroup db2 pid := by
  rw [denseGroup, h]; exact hd

theorem createMenu_dense (db : List Menu) (menu : Menu) (hD : Dense db)
    (h0 : 0 ≤ menu.orderIndex) : Dense (createMenu db menu) := by
  have hgl : (groupIdxs db menu.parentId).length = getSiblingCount db menu.parentId := by
    rw [groupIdxs, List.length_map]; rfl
  have hIc : ∀ j : Int, (groupIdxs db menu.parentId).count j
      = if 0 ≤ j ∧ j < (getSiblingCount db menu.parentId : Int) then 1 else 0 := by
    intro j
    have h := (denseGroup_iff_count db menu.parentId).mp (dense_group_of hD menu.parentId) j
    rwa [hgl] at h
  rw [createMenu]
  split_ifs with hbr
  · -- append at the end
    intro m2 hm2
    by_cases hpid : m2.parentId = menu.parentId
    · rw [hpid]
      have hsib1 : sibs (db ++ [{ menu with orderIndex := (getSiblingCount db menu.parentId : Int) }])
          menu.parentId = sibs db menu.parentId
            ++ [{ menu with orderIndex := (getSiblingCount db menu.parentId : Int) }] := by
        rw [sibs_append]
        simp [sibs]
      have hgrp : groupIdxs (db ++ [{ menu with orderIndex := (getSiblingCount db menu.parentId : Int) }])
          menu.parentId = groupIdxs db menu.parentId
            ++ [(getSiblingCount db menu.parentId : Int)] := by
        rw [groupIdxs, hsib1, List.map_append]
        rfl
      rw [denseGroup_iff_count]
      intro j
      rw [hgrp, List.length_append, hgl, List.count_append]
      have h1 := hIc j
      simp only [List.count_cons, List.count_nil, beq_iff_eq, List.length_cons,
        List.length_nil]
      split_ifs at h1 ⊢ <;> push_cast <;> omega
    · have hgrp : groupIdxs (db ++ [{ menu with orderIndex := (getSiblingCount db menu.parentId : Int) }])
          m2.parentId = groupIdxs db m2.parentId := by
        rw [groupIdxs, sibs_append]
        have : sibs [{ menu with orderIndex := (getSiblingCount db menu.parentId : Int) }]
            m2.parentId = [] := by
          simp [sibs]
          intro h
          exact hpid h.symm
        rw [this, List.append_nil]
        rfl
      exact denseGroup_congr hgrp (dense_group_of hD m2.parentId)
  · -- shift the tail of the group and insert
    intro m2 hm2
    have hfpar : ∀ m : Menu, ((fun m =>
        if m.parentId = menu.parentId ∧ menu.orderIndex ≤ m.orderIndex then
          { m with orderIndex := m.orderIndex + 1 }
        else m) m).parentId = m.parentId := by
      intro m; dsimp only; split_ifs <;> rfl
    by_cases hpid : m2.parentId = menu.parentId
    · rw [hpid]
      have hsib1 : sibs ((db.map fun m =>
          if m.parentId = menu.parentId ∧ menu.orderIndex ≤ m.orderIndex then
            { m with orderIndex := m.orderIndex + 1 }
          else m) ++ [menu]) menu.parentId
          = (sibs db menu.parentId).map (fun m =>
              if m.parentId = menu.parentId ∧ menu.orderIndex ≤ m.orderIndex then
                { m with orderIndex := m.orderIndex + 1 }
              else m) ++ [menu] := by
        rw [sibs_append, sibs_map_of_parent_eq db menu.parentId _ hfpar]
        simp [sibs]
      have hgrp : groupIdxs ((db.map fun m =>
          if m.parentId = menu.parentId ∧ menu.orderIndex ≤ m.orderIndex then
            { m with orderIndex := m.orderIndex + 1 }
          else m) ++ [menu]) menu.parentId
          = (groupIdxs db menu.parentId).map
              (fun v => if menu.orderIndex ≤ v then v + 1 else v) ++ [menu.orderIndex] := by
        rw [groupIdxs, hsib1, List.map_append, List.map_map, groupIdxs, List.map_map]
        congr 1
        apply List.map_congr_left
        intro x hx
        have hxpar : x.parentId = menu.parentId := (mem_sibs.mp hx).2
        dsimp only [Function.comp_apply]
        by_cases hw : menu.orderIndex ≤ x.orderIndex
        · rw [if_pos ⟨hxpar, hw⟩, if_pos hw]
        · rw [if_neg (fun h => hw h.2), if_neg hw]
      rw [denseGroup_iff_count]
      intro j
      rw [hgrp, List.length_append, List.count_append, count_map_bumpFrom,
        List.length_map, hgl]
      have h1 := hIc j
      have h2 := hIc (j - 1)
      simp only [List.count_cons, List.count_nil, beq_iff_eq, List.length_cons,
        List.length_nil]
      split_ifs at h1 h2 ⊢ <;> push_cast <;> omega
    · have hgrp : groupIdxs ((db.map fun m =>
          if m.parentId = menu.parentId ∧ menu.orderIndex ≤ m.orderIndex then
            { m with orderIndex := m.orderIndex + 1 }
          else m) ++ [menu]) m2.parentId = groupIdxs db m2.parentId := by
        rw [groupIdxs, sibs_append, sibs_map_of_parent_eq db m2.parentId _ hfpar]
        have hnil : sibs [menu] m2.parentId = [] := by
          simp [sibs]
          intro h
          exact hpid h.symm
        rw [hnil, List.append_nil]
        rw [List.map_congr_left (g := id) (fun x hx => by
          have hxpar : x.parentId = m2.parentId := (mem_sibs.mp hx).2
          dsimp only [id]
          rw [if_neg (by rintro ⟨w, -⟩; exact hpid (hxpar ▸ w))])]
        rw [List.map_id]
        rfl
      exact denseGroup_congr hgrp (dense_group_of hD m2.parentId)

end MenuSpec

namespace MenuSpec

/-- One mutating call of the menu service, as issued by the HTTP layer. -/
inductive Op where
  | create (m : Menu)
  | reorder (id : Nat) (newIndex : Int) (oldIndex : Option Int)
  | move (id : Nat) (parentId : Option Nat)
  deriving DecidableEq, Repr

/-- Store state after one call; a failed call (error return) leaves the store
unchanged, matching the transactional service. -/
def applyOp (db : List Menu) : Op → List Menu
  | .create m => createMenu db m
  | .reorder id n old =>
    match reorderMenu db id n old with
    | .ok db2 => db2
    | .error _ => db
  | .move id pid =>
    match moveMenu db id pid with
    | .ok db2 => db2
    | .error _ => db

def applySeq (db : List Menu) : List Op → List Menu
  | [] => db
  | op :: ops => applySeq (applyOp db op) ops

/-- Call-shape side conditions of the amended C2 claim: a create carries a
fresh id (uuids are assigned at creation) and a non-negative requested index
(the DTO validation); a reorder's old index is honest (omitted, or the
target's stored index); moves are excluded — the store keeps the moved node's
index, which the documented Delete/Move caveat already concedes breaks
density. -/
def OpOk (db : List Menu) : Op → Prop
  | .create m => ¬ m.id ∈ idsOf db ∧ 0 ≤ m.orderIndex
  | .reorder id _ old => ∀ r ∈ db, r.id = id → (old = none ∨ old = some r.orderIndex)
  | .move _ _ => False

instance (db : List Menu) (op : Op) : Decidable (OpOk db op) :=
  match op with
  | .create m => inferInstanceAs (Decidable (¬ m.id ∈ idsOf db ∧ 0 ≤ m.orderIndex))
  | .reorder id _ old =>
    inferInstanceAs (Decidable (∀ r ∈ db, r.id = id → (old = none ∨ old = some r.orderIndex)))
  | .move _ _ => inferInstanceAs (Decidable False)

def SeqOk (db : List Menu) : List Op → Prop
  | [] => True
  | op :: ops => OpOk db op ∧ SeqOk (applyOp db op) ops

def decSeqOk (db : List Menu) : (ops : List Op) → Decidable (SeqOk db ops)
  | [] => .isTrue trivial
  | op :: ops => @instDecidableAnd _ _ inferInstance (decSeqOk (applyOp db op) ops)

instance (db : List Menu) (ops : List Op) : Decidable (SeqOk db ops) := decSeqOk db ops

theorem applyOp_good (db : List Menu) (op : Op) (hN : (idsOf db).Nodup) (hD : Dense db)
    (hop : OpOk db op) : Dense (applyOp db op) ∧ (idsOf (applyOp db op)).Nodup := by
  cases op with
  | create m =>
    obtain ⟨hfresh, h0⟩ := hop
    refine ⟨createMenu_dense db m hD h0, ?_⟩
    rw [applyOp, createMenu_ids]
    refine List.Nodup.append hN (by simp) ?_
    intro a ha hb
    rw [List.mem_singleton] at hb
    exact hfresh (hb ▸ ha)
  | reorder id n old =>
    rw [applyOp]
    cases hres : reorderMenu db id n old with
    | error e => exact ⟨hD, hN⟩
    | ok db2 =>
      have hhon : ∀ r, db.find? (fun m => m.id == id) = some r →
          old = none ∨ old = some r.orderIndex := by
        intro r hf
        obtain ⟨hmem, hrid⟩ := find?_some_mem hf
        exact hop r hmem hrid
      obtain ⟨h1, h2⟩ := reorderMenu_ok_dense db db2 id n old hN hD hhon hres
      exact ⟨h1, h2 ▸ hN⟩
  | move id pid => cases hop

/-- Amended C2: from a dense store with unique ids, any sequence of valid
Create and honest Reorder calls (see `OpOk`; Move excluded) leaves every
sibling group dense. -/
theorem applySeq_preserves_density (db : List Menu) (ops : List Op)
    (hN : (idsOf db).Nodup) (hD : Dense db) (hSeq : SeqOk db ops) :
    Dense (applySeq db ops) := by
  induction ops generalizing db with
  | nil => exact hD
  | cons op ops ih =>
    obtain ⟨hop, hrest⟩ := hSeq
    obtain ⟨hD2, hN2⟩ := applyOp_good db op hN hD hop
    exact ih (applyOp db op) hN2 hD2 hrest

/-- Root with one child, both at index 0; moving the child to the root level
collides with the root's index. -/
def moveDb : List Menu := [menuRow 1 none "A" 0, menuRow 2 (some 1) "B" 0]

/-- Counterexample to C2 as stated: the density invariant survives neither
arbitrary sequences including Move — after `Move(2, null)` the root group
holds indices {0, 0}. -/
theorem dense_not_preserved_by_move :
    Dense moveDb ∧ (idsOf moveDb).Nodup ∧
    ¬ Dense (applySeq moveDb [Op.move 2 none]) := by
  refine ⟨by decide, by decide, by decide⟩

/-- Witness for the amended C2: a create at the front and two honest reorders
on the three-root store. -/
theorem applySeq_preserves_density_witness :
    ((idsOf threeRoots).Nodup ∧ Dense threeRoots ∧
      SeqOk threeRoots [Op.create (menuRow 4 none "D" 1), Op.reorder 1 3 none,
        Op.reorder 2 0 none]) ∧
    Dense (applySeq threeRoots [Op.create (menuRow 4 none "D" 1), Op.reorder 1 3 none,
        Op.reorder 2 0 none]) :=
  ⟨⟨by decide, by decide, by decide⟩,
   applySeq_preserves_density threeRoots _ (by decide) (by decide) (by decide)⟩

end MenuSpec

namespace MenuSpec

end MenuSpec

namespace MenuSpec

theorem setIdx_setIdx (m : Menu) (x y : Int) :
    ({ { m with orderIndex := x } with orderIndex := y } : Menu)
      = { m with orderIndex := y } := rfl

theorem shiftPass_skip_id (id : Nat) (pid : Option Nat) (oldI newI : Int) (m : Menu)
    (h : m.id = id) : shiftPass id pid oldI newI m = m := by
  rw [shiftPass, if_neg (fun hc => hc.1 h)]

theorem shiftPass_skip_parent (id : Nat) (pid : Option Nat) (oldI newI : Int) (m : Menu)
    (h : ¬ m.parentId = pid) : shiftPass id pid oldI newI m = m := by
  rw [shiftPass, if_neg (fun hc => h hc.2)]

theorem setPass_set (id : Nat) (newI : Int) (m : Menu) (h : m.id = id) :
    setPass id newI m = { m with orderIndex := newI } := by
  rw [setPass, if_pos h]

theorem shiftPass_fwd_in (id : Nat) (pid : Option Nat) (oldI newI : Int) (m : Menu)
    (h1 : ¬ m.id = id) (h2 : m.parentId = pid) (hd : oldI < newI)
    (hw : oldI < m.orderIndex ∧ m.orderIndex ≤ newI) :
    shiftPass id pid oldI newI m = { m with orderIndex := m.orderIndex - 1 } := by
  rw [shiftPass, if_pos ⟨h1, h2⟩, if_pos hd, if_pos hw]

theorem shiftPass_fwd_out (id : Nat) (pid : Option Nat) (oldI newI : Int) (m : Menu)
    (h1 : ¬ m.id = id) (h2 : m.parentId = pid) (hd : oldI < newI)
    (hw : ¬ (oldI < m.orderIndex ∧ m.orderIndex ≤ newI)) :
    shiftPass id pid oldI newI m = m := by
  rw [shiftPass, if_pos ⟨h1, h2⟩, if_pos hd, if_neg hw]

theorem shiftPass_bwd_in (id : Nat) (pid : Option Nat) (oldI newI : Int) (m : Menu)
    (h1 : ¬ m.id = id) (h2 : m.parentId = pid) (hd : ¬ oldI < newI)
    (hw : newI ≤ m.orderIndex ∧ m.orderIndex < oldI) :
    shiftPass id pid oldI newI m = { m with orderIndex := m.orderIndex + 1 } := by
  rw [shiftPass, if_pos ⟨h1, h2⟩, if_neg hd, if_pos hw]

theorem shiftPass_bwd_out (id : Nat) (pid : Option Nat) (oldI newI : Int) (m : Menu)
    (h1 : ¬ m.id = id) (h2 : m.parentId = pid) (hd : ¬ oldI < newI)
    (hw : ¬ (newI ≤ m.orderIndex ∧ m.orderIndex < oldI)) :
    shiftPass id pid oldI newI m = m := by
  rw [shiftPass, if_pos ⟨h1, h2⟩, if_neg hd, if_neg hw]

/-- Row-level round trip: shifting a group from `i` to `j` and back leaves
every row unchanged, provided no other group row already sits at `i`. -/
theorem roundtrip_row (id : Nat) (pid : Option Nat) (i j : Int) (m : Menu)
    (hij : ¬ i = j)
    (hcase : m.id = id ∧ m.orderIndex = i ∨
      ¬ m.id = id ∧ (¬ m.parentId = pid ∨ ¬ m.orderIndex = i)) :
    setPass id i (shiftPass id pid j i (setPass id j (shiftPass id pid i j m))) = m := by
  rcases hcase with ⟨hmid, hmi⟩ | ⟨hmid, hrest⟩
  · rw [shiftPass_skip_id id pid i j m hmid, setPass_set id j m hmid,
      shiftPass_skip_id id pid j i { m with orderIndex := j } hmid,
      setPass_set id i { m with orderIndex := j } hmid,
      setIdx_setIdx, setIdx_self _ _ hmi.symm]
  · have hnpar : ∀ x : Int, ¬ ({ m with orderIndex := x } : Menu).id = id := fun _ => hmid
    rcases hrest with hpar | hvi
    · rw [shiftPass_skip_parent id pid i j m hpar, setPass_skip id j m hmid,
        shiftPass_skip_parent id pid j i m hpar, setPass_skip id i m hmid]
    · by_cases hpar : m.parentId = pid
      · by_cases hdir : i < j
        · by_cases hw : i < m.orderIndex ∧ m.orderIndex ≤ j
          · rw [shiftPass_fwd_in id pid i j m hmid hpar hdir hw,
              setPass_skip id j _ (hnpar _),
              shiftPass_bwd_in id pid j i { m with orderIndex := m.orderIndex - 1 }
                (hnpar _) hpar (by omega)
                (show i ≤ m.orderIndex - 1 ∧ m.orderIndex - 1 < j by omega),
              setIdx_setIdx,
              setIdx_self _ _ (show m.orderIndex - 1 + 1 = m.orderIndex by omega),
              setPass_skip id i m hmid]
          · rw [shiftPass_fwd_out id pid i j m hmid hpar hdir hw,
              setPass_skip id j m hmid,
              shiftPass_bwd_out id pid j i m hmid hpar (by omega)
                (show ¬ (i ≤ m.orderIndex ∧ m.orderIndex < j) from by
                  rintro ⟨w1, w2⟩
                  exact hw ⟨by omega, by omega⟩),
              setPass_skip id i m hmid]
        · have hdir2 : j < i := by omega
          by_cases hw : j ≤ m.orderIndex ∧ m.orderIndex < i
          · rw [shiftPass_bwd_in id pid i j m hmid hpar hdir hw,
              setPass_skip id j _ (hnpar _),
              shiftPass_fwd_in id pid j i { m with orderIndex := m.orderIndex + 1 }
                (hnpar _) hpar hdir2
                (show j < m.orderIndex + 1 ∧ m.orderIndex + 1 ≤ i by omega),
              setIdx_setIdx,
              setIdx_self _ _ (show m.orderIndex + 1 - 1 = m.orderIndex by omega),
              setPass_skip id i m hmid]
          · rw [shiftPass_bwd_out id pid i j m hmid hpar hdir hw,
              setPass_skip id j m hmid,
              shiftPass_fwd_out id pid j i m hmid hpar hdir2
                (show ¬ (j < m.orderIndex ∧ m.orderIndex ≤ i) from by
                  rintro ⟨w1, w2⟩
                  exact hw ⟨by omega, by omega⟩),
              setPass_skip id i m hmid]
      · rw [shiftPass_skip_parent id pid i j m hpar, setPass_skip id j m hmid,
          shiftPass_skip_parent id pid j i m hpar, setPass_skip id i m hmid]

end MenuSpec

namespace MenuSpec

/-- In a dense store with unique ids, no two members of one sibling group
share an order index. -/
theorem dense_unique_idx {db : List Menu} (hN : (idsOf db).Nodup) (hD : Dense db)
    {r : Menu} (hmem : r ∈ db) {m : Menu} (hm : m ∈ db) (hmr : ¬ m.id = r.id)
    (hpar : m.parentId = r.parentId) : ¬ m.orderIndex = r.orderIndex := by
  intro heq
  have hrsib : r ∈ sibs db r.parentId := mem_sibs.mpr ⟨hmem, rfl⟩
  have hmsib : m ∈ sibs db r.parentId := mem_sibs.mpr ⟨hm, hpar⟩
  have hperm := perm_cons_rest (nodup_ids_sibs hN r.parentId) hrsib
  have hb := denseGroup_bounds (hD r hmem) hrsib
  have h1 : (groupIdxs db r.parentId).count r.orderIndex = 1 := by
    rw [(denseGroup_iff_count db r.parentId).mp (hD r hmem)]
    rw [if_pos ⟨hb.1, hb.2⟩]
  have hc := (hperm.map Menu.orderIndex).count_eq r.orderIndex
  simp only [List.map_cons, List.count_cons, beq_self_eq_true, if_true] at hc
  have hmrest : m ∈ (sibs db r.parentId).filter (fun x => !(x.id == r.id)) :=
    List.mem_filter.mpr ⟨hmsib, by simpa using hmr⟩
  have hmmem : r.orderIndex
      ∈ ((sibs db r.parentId).filter (fun x => !(x.id == r.id))).map Menu.orderIndex :=
    heq ▸ List.mem_map_of_mem Menu.orderIndex hmrest
  have hpos := List.count_pos_iff.mpr hmmem
  rw [groupIdxs] at h1
  omega

end MenuSpec

namespace MenuSpec

/-- C10: in a dense store with unique ids, reordering a node from its stored
index `i` to any in-range index `j` and then back restores the store exactly. -/
theorem reorder_roundtrip (db : List Menu) (id : Nat) (r : Menu) (j : Int)
    (hN : (idsOf db).Nodup) (hD : Dense db) (hmem : r ∈ db) (hid : r.id = id)
    (h0 : 0 ≤ j) (hj : j < (getSiblingCount db r.parentId : Int)) :
    (reorderMenu db id j (some r.orderIndex)).bind
      (fun db1 => reorderMenu db1 id r.orderIndex (some j)) = .ok db := by
  have hf : db.find? (fun m => m.id == id) = some r := find?_eq_of_mem hN hmem hid
  have hrsib : r ∈ sibs db r.parentId := mem_sibs.mpr ⟨hmem, rfl⟩
  have hgl : (groupIdxs db r.parentId).length = getSiblingCount db r.parentId := by
    rw [groupIdxs, List.length_map]; rfl
  have hrb := denseGroup_bounds (hD r hmem) hrsib
  rw [hgl] at hrb
  by_cases hij : r.orderIndex = j
  · simp only [reorderMenu, hf, Except.bind]
    rw [if_neg (by omega)]
    have hcl : (if (getSiblingCount db r.parentId : Int) ≤ j
        then (getSiblingCount db r.parentId : Int) - 1 else j) = j := if_neg (by omega)
    simp only [hcl, Option.getD_some]
    rw [if_pos hij]
    simp only [reorderMenu, hf]
    rw [if_neg (by omega)]
    have hcl2 : (if (getSiblingCount db r.parentId : Int) ≤ r.orderIndex
        then (getSiblingCount db r.parentId : Int) - 1 else r.orderIndex) = r.orderIndex :=
      if_neg (by omega)
    simp only [hcl2, Option.getD_some]
    rw [if_pos hij.symm]
  · have hcl : (if (getSiblingCount db r.parentId : Int) ≤ j
        then (getSiblingCount db r.parentId : Int) - 1 else j) = j := if_neg (by omega)
    have hstep1 : reorderMenu db id j (some r.orderIndex)
        = .ok ((db.map (shiftPass id r.parentId r.orderIndex j)).map (setPass id j)) := by
      simp only [reorderMenu, hf, Option.getD_some, hcl]
      rw [if_neg (show ¬ j < 0 by omega), if_neg hij]
    rw [hstep1]
    show reorderMenu ((db.map (shiftPass id r.parentId r.orderIndex j)).map (setPass id j))
      id r.orderIndex (some j) = .ok db
    have hf1 : ((db.map (shiftPass id r.parentId r.orderIndex j)).map (setPass id j)).find?
        (fun m => m.id == id) = some { r with orderIndex := j } := by
      rw [find?_map_of_id_eq _ _ _ (setPass_id id _),
        find?_map_of_id_eq _ _ _ (shiftPass_id id r.parentId _ _), hf]
      simp only [Option.map_some']
      rw [shiftPass_skip_id id r.parentId r.orderIndex j r hid, setPass_set id j r hid]
    have hcnt1 : getSiblingCount
        ((db.map (shiftPass id r.parentId r.orderIndex j)).map (setPass id j))
        ({ r with orderIndex := j } : Menu).parentId = getSiblingCount db r.parentId := by
      show getSiblingCount _ r.parentId = _
      rw [getSiblingCount,
        sibs_map_of_parent_eq _ _ _ (fun m => setPass_parent id j m),
        sibs_map_of_parent_eq _ _ _ (fun m => shiftPass_parent id r.parentId r.orderIndex j m),
        List.length_map, List.length_map]
      rfl
    simp only [reorderMenu, hf1, hcnt1, Option.getD_some]
    have hcl2 : (if (getSiblingCount db r.parentId : Int) ≤ r.orderIndex
        then (getSiblingCount db r.parentId : Int) - 1 else r.orderIndex) = r.orderIndex :=
      if_neg (by omega)
    simp only [hcl2]
    rw [if_neg (show ¬ r.orderIndex < 0 by omega),
      if_neg (show ¬ j = r.orderIndex from fun h => hij h.symm)]
    congr 1
    rw [List.map_map, List.map_map, List.map_map]
    conv_rhs => rw [← List.map_id db]
    apply List.map_congr_left
    intro m hm
    refine roundtrip_row id r.parentId r.orderIndex j m hij ?_
    by_cases hmid : m.id = id
    · have hmr : m = r := eq_of_id_eq hN hm hmem (hmid.trans hid.symm)
      exact Or.inl ⟨hmid, by rw [hmr]⟩
    · refine Or.inr ⟨hmid, ?_⟩
      by_cases hpar : m.parentId = r.parentId
      · exact Or.inr (dense_unique_idx hN hD hmem hm
          (fun h => hmid (h.trans hid)) hpar)
      · exact Or.inl hpar


end MenuSpec

namespace MenuSpec

/-- Witness for C10: moving Menu 0 from index 0 to 2 and back on the
three-root store. -/
theorem reorder_roundtrip_witness :
    (reorderMenu threeRoots 1 2 (some 0)).bind
      (fun db1 => reorderMenu db1 1 0 (some 2)) = .ok threeRoots :=
  reorder_roundtrip threeRoots 1 (menuRow 1 none "Menu 0" 0) 2 (by decide) (by decide)
    (by decide) (by decide) (by decide) (by decide)

end MenuSpec

/-! ### C3: tree assembly -/

namespace MenuSpec

/-- Tree node returned by `GetMenuTree`: a row together with its computed
`Children` association (models.Menu's gorm-populated field). -/
inductive MenuNode where
  | node (menu : Menu) (children : List MenuNode)

def MenuNode.menu : MenuNode → Menu
  | .node m _ => m

/-- Comparison used by the initial ordered load (`ORDER BY order_index ASC`). -/
def menuLe (a b : Menu) : Prop := a.orderIndex ≤ b.orderIndex

instance : DecidableRel menuLe := fun a b =>
  inferInstanceAs (Decidable (a.orderIndex ≤ b.orderIndex))

instance : IsTotal Menu menuLe := ⟨fun a b => Int.le_total a.orderIndex b.orderIndex⟩

instance : IsTrans Menu menuLe := ⟨fun _ _ _ h1 h2 => le_trans h1 h2⟩

/-- The ordered load of `GetMenuTree` (menu_service.go:212): all rows sorted
ascending by `order_index`; the tie order among equal indexes is the
database's choice and is modelled by a stable sort. -/
def sortByOrderIndex (db : List Menu) : List Menu := List.insertionSort menuLe db

/-- `MenuService.buildChildren` (menu_service.go:196-208): the children of
`pid` are the loaded rows whose `parent_id` equals it, each given its own
children recursively (the Go `menuMap` argument is never read by the body and
is dropped).  The Go recursion is unbounded and diverges on parent cycles;
the fuel argument makes it total, and under the forest hypothesis of the
claims a fuel of `all.length` is shown sufficient. -/
def buildChildren (all : List Menu) : Nat → Nat → List MenuNode
  | 0, _ => []
  | fuel+1, pid =>
    (all.filter (fun m => m.parentId == some pid)).map
      (fun c => .node c (buildChildren all fuel c.id))

/-- `MenuService.GetMenuTree` (menu_service.go:210-231). -/
def getMenuTree (db : List Menu) : List MenuNode :=
  ((sortByOrderIndex db).filter (fun m => m.parentId == none)).map
    (fun m => .node m
      (buildChildren (sortByOrderIndex db) (sortByOrderIndex db).length m.id))

mutual
/-- Number of occurrences of the row `r` in a result tree. -/
def rowOcc (r : Menu) : MenuNode → Nat
  | .node m cs => (if m = r then 1 else 0) + rowOccF r cs
/-- Number of occurrences of the row `r` in a result forest. -/
def rowOccF (r : Menu) : List MenuNode → Nat
  | [] => 0
  | t :: ts => rowOcc r t + rowOccF r ts
end

/-- Adjacent-pair ascending check on a row list. -/
def idxSortedB : List Menu → Bool
  | [] => true
  | [_] => true
  | a :: b :: rest => decide (a.orderIndex ≤ b.orderIndex) && idxSortedB (b :: rest)

mutual
/-- Well-shaped result node: every child row names this node as its parent,
the children are listed in ascending order-index order, and the subtrees are
well-shaped in turn. -/
def nodeOk : MenuNode → Bool
  | .node m cs => ((cs.map MenuNode.menu).all (fun c => c.parentId == some m.id))
      && idxSortedB (cs.map MenuNode.menu) && forestOk cs
def forestOk : List MenuNode → Bool
  | [] => true
  | t :: ts => nodeOk t && forestOk ts
end

/-- The stored rows form a forest: unique ids, and a rank function certifying
that parent links exist and terminate (equivalently: every non-null parent id
references a row and no node is its own ancestor). -/
def IsForest (db : List Menu) : Prop :=
  (idsOf db).Nodup ∧ ∃ depth : Nat → Nat,
    (∀ r ∈ db, depth r.id < db.length) ∧
    (∀ r ∈ db, r.parentId = none ∨
      ∃ q, q ∈ db ∧ r.parentId = some q.id ∧ depth r.id = depth q.id + 1)

/-- The parent chain of `r` (inside the row list `all`) passes through the id
`pid`. -/
inductive Reaches (all : List Menu) (pid : Nat) : Menu → Prop
  | direct (r : Menu) (h : r.parentId = some pid) : Reaches all pid r
  | step (r q : Menu) (hq : q ∈ all) (hr : r.parentId = some q.id)
      (h : Reaches all pid q) : Reaches all pid r

end MenuSpec

namespace MenuSpec

theorem reach_depth_lt (all : List Menu) (depth : Nat → Nat)
    (hpar : ∀ r ∈ all, ∀ p, r.parentId = some p →
      ∃ q, q ∈ all ∧ q.id = p ∧ depth r.id = depth q.id + 1)
    {pid : Nat} {r : Menu} (h1 : Reaches all pid r) :
    r ∈ all → ∀ q ∈ all, q.id = pid → depth q.id < depth r.id := by
  induction h1 with
  | direct r h =>
    intro hr q hq hqid
    obtain ⟨q', _, hid', hd⟩ := hpar r hr _ h
    have : depth q.id = depth q'.id := by rw [hqid, hid']
    omega
  | step r q1 hq1 hr1 h ih =>
    intro hr q hq hqid
    have h1 := ih hq1 q hq hqid
    obtain ⟨q', _, hid', hd⟩ := hpar r hr _ hr1
    have : depth q'.id = depth q1.id := by rw [hid']
    omega

theorem reach_extend (all : List Menu) {pid : Nat} {r : Menu}
    (h1 : Reaches all pid r) :
    ∀ q, q ∈ all → q.id = pid → ∀ pid2, q.parentId = some pid2 →
      Reaches all pid2 r := by
  induction h1 with
  | direct r h =>
    intro q hq hqid pid2 hq2
    exact .step r q hq (by rw [h, hqid]) (.direct q hq2)
  | step r q1 hq1 hr1 h ih =>
    intro q hq hqid pid2 hq2
    exact .step r q1 hq1 hr1 (ih q hq hqid pid2 hq2)

theorem reach_linear (all : List Menu) (hN : (idsOf all).Nodup)
    {c1 c2 r : Menu} (hc1 : c1 ∈ all) (hc2 : c2 ∈ all)
    (h1 : Reaches all c1.id r) :
    Reaches all c2.id r → c1 = c2 ∨ Reaches all c1.id c2 ∨ Reaches all c2.id c1 := by
  induction h1 with
  | direct r h =>
    intro h2
    cases h2 with
    | direct _ h' =>
      left
      apply eq_of_id_eq hN hc1 hc2
      have : some c1.id = some c2.id := by rw [← h, h']
      exact Option.some.inj this
    | step _ q hq hr h' =>
      right; right
      have hqe : q = c1 := by
        apply eq_of_id_eq hN hq hc1
        have : some q.id = some c1.id := by rw [← hr, h]
        exact Option.some.inj this
      exact hqe ▸ h'
  | step r q1 hq1 hr1 h ih =>
    intro h2
    cases h2 with
    | direct _ h' =>
      right; left
      have hqe : q1 = c2 := by
        apply eq_of_id_eq hN hq1 hc2
        have : some q1.id = some c2.id := by rw [← hr1, h']
        exact Option.some.inj this
      exact hqe ▸ h
    | step _ q' hq' hr' h' =>
      have hqe : q' = q1 := by
        apply eq_of_id_eq hN hq' hq1
        have : some q'.id = some q1.id := by rw [← hr', hr1]
        exact Option.some.inj this
      exact ih (hqe ▸ h')

theorem root_no_reach (all : List Menu) {pid : Nat} {m : Menu}
    (h : m.parentId = none) : ¬ Reaches all pid m := by
  intro hr
  cases hr with
  | direct _ h' => rw [h] at h'; cases h'
  | step _ q _ hr' _ => rw [h] at hr'; cases hr'

theorem exists_child_on_chain (all : List Menu) {pid : Nat} {r : Menu}
    (h1 : Reaches all pid r) :
    r.parentId = some pid ∨ ∃ c, c ∈ all ∧ c.parentId = some pid ∧ Reaches all c.id r := by
  induction h1 with
  | direct r h => exact Or.inl h
  | step r q1 hq1 hr1 h ih =>
    rcases ih with hd | ⟨c, hc, hcp, hcr⟩
    · exact Or.inr ⟨q1, hq1, hd, .direct r hr1⟩
    · exact Or.inr ⟨c, hc, hcp, .step r q1 hq1 hr1 hcr⟩

theorem exists_root_anc (all : List Menu) (depth : Nat → Nat)
    (hpar : ∀ r ∈ all, ∀ p, r.parentId = some p →
      ∃ q, q ∈ all ∧ q.id = p ∧ depth r.id = depth q.id + 1) :
    ∀ n, ∀ r, r ∈ all → depth r.id ≤ n → ∀ p, r.parentId = some p →
      ∃ m, m ∈ all ∧ m.parentId = none ∧ Reaches all m.id r := by
  intro n
  induction n with
  | zero =>
    intro r hr hd p hp
    obtain ⟨q, hq, _, hdep⟩ := hpar r hr p hp
    omega
  | succ n ih =>
    intro r hr hd p hp
    obtain ⟨q, hq, hqid, hdep⟩ := hpar r hr p hp
    have hrq : r.parentId = some q.id := by rw [hp, hqid]
    cases hqp : q.parentId with
    | none => exact ⟨q, hq, hqp, .direct r hrq⟩
    | some p2 =>
      obtain ⟨m, hm, hmn, hmr⟩ := ih q hq (by omega) p2 hqp
      exact ⟨m, hm, hmn, .step r q hq hrq hmr⟩

end MenuSpec

namespace MenuSpec

theorem rowOccF_map_node (r : Menu) (f : Menu → List MenuNode) (L : List Menu) :
    rowOccF r (L.map (fun c => MenuNode.node c (f c)))
      = (L.map (fun c => (if c = r then 1 else 0) + rowOccF r (f c))).sum := by
  induction L with
  | nil => rfl
  | cons a t ih =>
    simp only [List.map_cons, List.sum_cons, rowOccF, rowOcc, ih]

theorem map_sum_zero (L : List Menu) (f : Menu → Nat) (hf : ∀ c ∈ L, f c = 0) :
    (L.map f).sum = 0 := by
  induction L with
  | nil => rfl
  | cons a t ih =>
    rw [List.map_cons, List.sum_cons, hf a (List.mem_cons_self a t),
      ih (fun c hc => hf c (List.mem_cons_of_mem a hc))]

theorem map_sum_single (L : List Menu) (hN : L.Nodup) (c0 : Menu) (hc : c0 ∈ L)
    (f : Menu → Nat) (hf : ∀ c ∈ L, f c = if c = c0 then 1 else 0) :
    (L.map f).sum = 1 := by
  induction L with
  | nil => cases hc
  | cons a t ih =>
    obtain ⟨hat, htN⟩ := List.nodup_cons.mp hN
    rw [List.map_cons, List.sum_cons]
    rcases List.mem_cons.mp hc with he | hc
    · have h0 : f a = 1 := by
        rw [hf a (List.mem_cons_self a t), if_pos he.symm]
      have hz : (t.map f).sum = 0 := map_sum_zero t f (fun c hct => by
        rw [hf c (List.mem_cons_of_mem a hct),
          if_neg (fun h2 => hat (by rw [← he, ← h2]; exact hct))])
      rw [h0, hz]
    · have h0 : f a = 0 := by
        rw [hf a (List.mem_cons_self a t),
          if_neg (fun h2 => hat (by rw [h2]; exact hc))]
      rw [h0, ih htN hc (fun c hct => hf c (List.mem_cons_of_mem a hct)),
        Nat.zero_add]

open Classical in
theorem rowOccF_buildChildren (all : List Menu) (depth : Nat → Nat)
    (hN : (idsOf all).Nodup)
    (hlen : ∀ r ∈ all, depth r.id < all.length)
    (hpar : ∀ r ∈ all, ∀ p, r.parentId = some p →
      ∃ q, q ∈ all ∧ q.id = p ∧ depth r.id = depth q.id + 1) :
    ∀ fuel, ∀ q, q ∈ all → ∀ r, r ∈ all → all.length ≤ fuel + depth q.id →
      rowOccF r (buildChildren all fuel q.id) = if Reaches all q.id r then 1 else 0 := by
  intro fuel
  induction fuel with
  | zero =>
    intro q hq r hr hbound
    have := hlen q hq
    omega
  | succ fuel ih =>
    intro q hq r hr hbound
    rw [buildChildren, rowOccF_map_node]
    have hcd : ∀ c ∈ all.filter (fun m => m.parentId == some q.id),
        c ∈ all ∧ c.parentId = some q.id ∧ depth c.id = depth q.id + 1 := by
      intro c hcf
      have h1 := List.mem_filter.mp hcf
      have hc : c ∈ all := h1.1
      have hcp : c.parentId = some q.id := by simpa using h1.2
      obtain ⟨q', hq', hid', hd⟩ := hpar c hc _ hcp
      have : depth q'.id = depth q.id := by rw [hid']
      exact ⟨hc, hcp, by omega⟩
    have hLN : (all.filter (fun m => m.parentId == some q.id)).Nodup :=
      List.Nodup.filter _ (List.Nodup.of_map _ hN)
    rw [List.map_congr_left (g := fun c =>
        (if c = r then 1 else 0) + (if Reaches all c.id r then 1 else 0))
      (fun c hcf => by
        obtain ⟨hc, hcp, hd⟩ := hcd c hcf
        rw [ih c hc r hr (by omega)])]
    by_cases hA : r.parentId = some q.id
    · have hrmem : r ∈ all.filter (fun m => m.parentId == some q.id) :=
        List.mem_filter.mpr ⟨hr, by simpa using hA⟩
      rw [map_sum_single _ hLN r hrmem _ (fun c hcf => by
        obtain ⟨hc, hcp, hd⟩ := hcd c hcf
        have hnr : ¬ Reaches all c.id r := by
          intro hR
          have hlt := reach_depth_lt all depth hpar hR hr c hc rfl
          obtain ⟨q', hq', hid', hdr⟩ := hpar r hr _ hA
          have : depth q'.id = depth q.id := by rw [hid']
          omega
        rw [if_neg hnr, Nat.add_zero])]
      rw [if_pos (.direct r hA)]
    · by_cases hB : Reaches all q.id r
      · obtain hd | ⟨c0, hc0, hc0p, hc0r⟩ := exists_child_on_chain all hB
        · exact absurd hd hA
        · have hc0d : depth c0.id = depth q.id + 1 := by
            obtain ⟨q', hq', hid', hd'⟩ := hpar c0 hc0 _ hc0p
            have : depth q'.id = depth q.id := by rw [hid']
            omega
          have hc0f : c0 ∈ all.filter (fun m => m.parentId == some q.id) :=
            List.mem_filter.mpr ⟨hc0, by simpa using hc0p⟩
          rw [map_sum_single _ hLN c0 hc0f _ (fun c hcf => by
            obtain ⟨hc, hcp, hd⟩ := hcd c hcf
            have h1 : (if c = r then 1 else 0) = 0 :=
              if_neg (fun he => hA (by rw [← he]; exact hcp))
            by_cases hcc : c = c0
            · rw [h1, if_pos (show Reaches all c.id r by rw [hcc]; exact hc0r),
                if_pos hcc, Nat.zero_add]
            · have hnr : ¬ Reaches all c.id r := by
                intro hR
                rcases reach_linear all hN hc hc0 hR hc0r with he | hrr | hrr
                · exact hcc he
                · have := reach_depth_lt all depth hpar hrr hc0 c hc rfl
                  omega
                · have := reach_depth_lt all depth hpar hrr hc c0 hc0 rfl
                  omega
              rw [h1, if_neg hnr, if_neg hcc, Nat.add_zero]), if_pos hB]
      · rw [map_sum_zero _ _ (fun c hcf => by
          obtain ⟨hc, hcp, hd⟩ := hcd c hcf
          have h1 : ¬ c = r := fun he => hA (by rw [← he]; exact hcp)
          have h2 : ¬ Reaches all c.id r := fun hR =>
            hB (reach_extend all hR c hc rfl _ hcp)
          rw [if_neg h1, if_neg h2]), if_neg hB]

end MenuSpec

namespace MenuSpec

theorem map_menu_node (f : Menu → List MenuNode) : ∀ L : List Menu,
    (L.map (fun c => MenuNode.node c (f c))).map MenuNode.menu = L
  | [] => rfl
  | a :: t => by
    simp only [List.map_cons, MenuNode.menu, map_menu_node f t]

theorem build_menus (all : List Menu) (fuel pid : Nat) :
    ((buildChildren all (fuel+1) pid).map MenuNode.menu)
      = all.filter (fun m => m.parentId == some pid) := by
  rw [buildChildren]
  exact map_menu_node _ _

theorem pairwise_idxSortedB : ∀ l : List Menu, l.Pairwise menuLe → idxSortedB l = true
  | [], _ => rfl
  | [_], _ => rfl
  | a :: b :: rest, h => by
    obtain ⟨ha, ht⟩ := List.pairwise_cons.mp h
    rw [idxSortedB, Bool.and_eq_true, decide_eq_true_eq]
    exact ⟨ha b (List.mem_cons_self b rest), pairwise_idxSortedB (b :: rest) ht⟩

theorem forestOk_map (f : Menu → MenuNode) : ∀ L : List Menu,
    forestOk (L.map f) = L.all (fun c => nodeOk (f c))
  | [] => rfl
  | a :: t => by rw [List.map_cons, forestOk, List.all_cons, forestOk_map f t]

theorem build_forestOk (all : List Menu) (hs : all.Pairwise menuLe) :
    ∀ fuel, (∀ pid, forestOk (buildChildren all fuel pid) = true) ∧
      (∀ c : Menu, nodeOk (MenuNode.node c (buildChildren all fuel c.id)) = true) := by
  intro fuel
  induction fuel with
  | zero =>
    exact ⟨fun pid => rfl, fun c => rfl⟩
  | succ fuel ih =>
    have h1 : ∀ pid, forestOk (buildChildren all (fuel+1) pid) = true := by
      intro pid
      rw [buildChildren, forestOk_map, List.all_eq_true]
      intro c _
      exact ih.2 c
    refine ⟨h1, ?_⟩
    intro c
    rw [nodeOk, Bool.and_eq_true, Bool.and_eq_true]
    refine ⟨⟨?_, ?_⟩, h1 c.id⟩
    · rw [build_menus, List.all_eq_true]
      intro x hx
      exact (List.mem_filter.mp hx).2
    · rw [build_menus]
      exact pairwise_idxSortedB _ (List.Pairwise.filter _ hs)

theorem getMenuTree_menus (db : List Menu) :
    (getMenuTree db).map MenuNode.menu
      = (sortByOrderIndex db).filter (fun m => m.parentId == none) := by
  rw [getMenuTree]
  exact map_menu_node _ _

open Classical in
theorem tree_count (all : List Menu) (depth : Nat → Nat)
    (hN : (idsOf all).Nodup)
    (hlen : ∀ r ∈ all, depth r.id < all.length)
    (hpar : ∀ r ∈ all, ∀ p, r.parentId = some p →
      ∃ q, q ∈ all ∧ q.id = p ∧ depth r.id = depth q.id + 1)
    (r : Menu) (hr : r ∈ all) :
    rowOccF r ((all.filter (fun m => m.parentId == none)).map
      (fun m => MenuNode.node m (buildChildren all all.length m.id))) = 1 := by
  rw [rowOccF_map_node r (fun m => buildChildren all all.length m.id)]
  have hroots_N : (all.filter (fun m => m.parentId == none)).Nodup :=
    List.Nodup.filter _ (List.Nodup.of_map _ hN)
  have hcnt : ∀ c ∈ all.filter (fun m => m.parentId == none),
      rowOccF r (buildChildren all all.length c.id)
        = if Reaches all c.id r then 1 else 0 := by
    intro c hcf
    exact rowOccF_buildChildren all depth hN hlen hpar all.length c
      (List.mem_filter.mp hcf).1 r hr (Nat.le_add_right _ _)
  cases hrp : r.parentId with
  | none =>
    apply map_sum_single _ hroots_N r (List.mem_filter.mpr ⟨hr, by rw [hrp]; rfl⟩)
    intro c hcf
    rw [hcnt c hcf, if_neg (root_no_reach all hrp), Nat.add_zero]
  | some p =>
    obtain ⟨m0, hm0, hm0p, hm0r⟩ :=
      exists_root_anc all depth hpar (depth r.id) r hr le_rfl p hrp
    apply map_sum_single _ hroots_N m0 (List.mem_filter.mpr ⟨hm0, by rw [hm0p]; rfl⟩)
    intro c hcf
    have hc := (List.mem_filter.mp hcf).1
    have hcp : c.parentId = none := by simpa using (List.mem_filter.mp hcf).2
    rw [hcnt c hcf]
    have h1 : (if c = r then 1 else 0) = 0 := if_neg (fun he => by
      rw [he] at hcp; rw [hcp] at hrp; cases hrp)
    by_cases hcm : c = m0
    · rw [h1, if_pos (show Reaches all c.id r by rw [hcm]; exact hm0r),
        if_pos hcm, Nat.zero_add]
    · have hnr : ¬ Reaches all c.id r := by
        intro hR
        rcases reach_linear all hN hc hm0 hR hm0r with he | hrr | hrr
        · exact hcm he
        · exact root_no_reach all hm0p hrr
        · exact root_no_reach all hcp hrr
      rw [h1, if_neg hnr, if_neg hcm]

end MenuSpec

namespace MenuSpec

/-- Concrete forest for the C3 witness: two roots, the first with two
children, all order indexes dense and ascending. -/
def c3Db : List Menu :=
  [menuRow 1 none "A" 0, menuRow 2 (some 1) "B" 0,
   menuRow 3 (some 1) "C" 1, menuRow 4 none "D" 1]

/-- C3: for every stored row set that forms a forest (unique ids, parent
links existing and acyclic, certified by a depth function), `GetMenuTree`
returns as roots exactly the rows with null parent_id (up to the order fixed
by the sort), every stored row occurs exactly once in the result tree, every
node's children really name it as their parent and each children list is in
ascending order_index order (`forestOk`), and the root list itself is in
ascending order_index order. -/
theorem getMenuTree_spec (db : List Menu) (h : IsForest db) :
    ((getMenuTree db).map MenuNode.menu).Perm
        (db.filter (fun m => m.parentId == none)) ∧
    (∀ r ∈ db, rowOccF r (getMenuTree db) = 1) ∧
    forestOk (getMenuTree db) = true ∧
    idxSortedB ((getMenuTree db).map MenuNode.menu) = true := by
  obtain ⟨hNdb, depth, hlen_db, hpar_db⟩ := h
  have perm : (sortByOrderIndex db).Perm db := List.perm_insertionSort menuLe db
  have hs : (sortByOrderIndex db).Pairwise menuLe := List.sorted_insertionSort menuLe db
  have hN : (idsOf (sortByOrderIndex db)).Nodup := (perm.map Menu.id).nodup_iff.mpr hNdb
  have hlen : ∀ r ∈ sortByOrderIndex db, depth r.id < (sortByOrderIndex db).length := by
    intro r hr
    rw [perm.length_eq]
    exact hlen_db r (perm.mem_iff.mp hr)
  have hpar : ∀ r ∈ sortByOrderIndex db, ∀ p, r.parentId = some p →
      ∃ q, q ∈ sortByOrderIndex db ∧ q.id = p ∧ depth r.id = depth q.id + 1 := by
    intro r hr p hp
    rcases hpar_db r (perm.mem_iff.mp hr) with hnone | ⟨q, hq, hqp, hd⟩
    · rw [hnone] at hp; cases hp
    · rw [hp] at hqp
      exact ⟨q, perm.mem_iff.mpr hq, (Option.some.inj hqp).symm, hd⟩
  refine ⟨?_, ?_, ?_, ?_⟩
  · rw [getMenuTree_menus]
    exact perm.filter _
  · intro r hr
    rw [getMenuTree]
    exact tree_count (sortByOrderIndex db) depth hN hlen hpar r (perm.mem_iff.mpr hr)
  · rw [getMenuTree, forestOk_map, List.all_eq_true]
    intro c _
    exact (build_forestOk (sortByOrderIndex db) hs (sortByOrderIndex db).length).2 c
  · rw [getMenuTree_menus]
    exact pairwise_idxSortedB _ (List.Pairwise.filter _ hs)

/-- Witness for C3 at the concrete forest `c3Db`, with the depth function
given explicitly and the forest hypothesis checked by evaluation. -/
theorem getMenuTree_spec_witness :
    IsForest c3Db ∧
    (((getMenuTree c3Db).map MenuNode.menu).Perm
        (c3Db.filter (fun m => m.parentId == none)) ∧
      (∀ r ∈ c3Db, rowOccF r (getMenuTree c3Db) = 1) ∧
      forestOk (getMenuTree c3Db) = true ∧
      idxSortedB ((getMenuTree c3Db).map MenuNode.menu) = true) := by
  have hF : IsForest c3Db :=
    ⟨by decide, fun i => if i = 2 ∨ i = 3 then 1 else 0, by decide, by decide⟩
  exact ⟨hF, getMenuTree_spec c3Db hF⟩

end MenuSpec
